import Mathlib

/-!
Verification of the downwatch dispatch core (main.go) against its
natural-language specification.  Go strings are modelled as `List Char`;
Go's byte-oriented std-library helpers are modelled at rune level
(`strings.ToLower` / `strings.EqualFold` are modelled with ASCII case
folding, which is what `Char.toLower` provides and is the fragment every
claim exercises).  Filesystem-dependent functions take the filesystem, or
the outcome of each system call, as an explicit argument.
-/

namespace Downwatch

/-- Go string model. -/
abbrev GoStr := List Char

/-- Shorthand for turning a literal into the model representation. -/
def gs (s : String) : GoStr := s.toList

/-! ## Models of the Go standard-library helpers used by main.go -/

/-- Model of strings.HasPrefix. -/
def strings_HasPre (s pre : GoStr) : Bool := pre.isPrefixOf s

/-- Model of strings.TrimPrefix: drop `pre` when it is a prefix, else return `s` unchanged. -/
def strings_TrimPre (s pre : GoStr) : GoStr :=
  if pre.isPrefixOf s then s.drop pre.length else s

/-- Model of strings.TrimSuffix. -/
def strings_TrimSuffix (s suf : GoStr) : GoStr :=
  if suf.isSuffixOf s then s.take (s.length - suf.length) else s

/-- Model of strings.ToLower (ASCII fold; Go also folds non-ASCII letters). -/
def strings_ToLower (s : GoStr) : GoStr := s.map Char.toLower

/-- Model of strings.EqualFold (ASCII fold; Go uses Unicode simple folding). -/
def strings_EqualFold (a b : GoStr) : Bool :=
  a.map Char.toLower == b.map Char.toLower

/-- Model of filepath.Ext on the reversed string: collect the characters of
the final element up to and including the last dot; `none` when the final
element has no dot.  The result is the reversed extension. -/
def extRevScan : GoStr → Option GoStr
  | [] => none
  | c :: rest =>
      if c = '/' then none
      else if c = '.' then some [c]
      else (extRevScan rest).map (fun l => c :: l)

/-- Model of filepath.Ext: the suffix of the final path element beginning at
its last dot, or empty when there is none. -/
def filepath_Ext (s : GoStr) : GoStr :=
  match extRevScan s.reverse with
  | none => []
  | some l => l.reverse

/-- Model of filepath.Base for non-empty paths: the last element of the path
after dropping trailing separators ("/" when the path is all separators). -/
def filepath_Base (p : GoStr) : GoStr :=
  if p.isEmpty then ['.']
  else
    let q := (p.reverse.dropWhile (fun c => c = '/')).reverse
    if q.isEmpty then ['/']
    else (q.reverse.takeWhile (fun c => c ≠ '/')).reverse

/-- Model of filepath.Dir for clean paths: everything before the last
separator ("." when there is none, "/" when the separator is leading). -/
def filepath_Dir (p : GoStr) : GoStr :=
  let rev := p.reverse.dropWhile (fun c => c ≠ '/')
  match rev with
  | [] => ['.']
  | [_] => ['/']
  | _ :: rest => rest.reverse

/-- Model of filepath.Join on two components, for a clean non-empty first
component and a clean relative second component (the only way main.go calls
it): concatenation with a single separator. -/
def filepath_Join2 (a b : GoStr) : GoStr := a ++ '/' :: b

/-! ### Model of filepath.Match

The pattern is first parsed into tokens (`*`, `?`, character class,
escaped/plain literal); a malformed pattern (Go returns ErrBadPattern, which
`anyPatternMatch` in main.go discards, treating the pattern as non-matching)
parses to `none`. -/

/-- One glob-pattern token. -/
inductive GlobTok where
  | lit (c : Char)
  | anyChar
  | star
  | cls (neg : Bool) (ranges : List (Char × Char))
deriving DecidableEq

/-- Model of getEsc inside filepath.Match's class parser: one (possibly
backslash-escaped) range endpoint; unescaped `-` and `]` are rejected. -/
def getEsc : GoStr → Option (Char × GoStr)
  | [] => none
  | '-' :: _ => none
  | ']' :: _ => none
  | '\\' :: rest =>
      match rest with
      | [] => none
      | c :: rest' => some (c, rest')
  | c :: rest => some (c, rest)

/-- Parse the ranges of a character class (after `[` and an optional `^`).
A closing `]` is only recognised after at least one range, as in Go. -/
def classRangesAux : Nat → GoStr → Nat → List (Char × Char) →
    Option (List (Char × Char) × GoStr)
  | 0, _, _, _ => none
  | fuel + 1, p, nr, acc =>
      match p with
      | ']' :: rest => if 0 < nr then some (acc.reverse, rest) else none
      | _ =>
          match getEsc p with
          | none => none
          | some (lo, p1) =>
              match p1 with
              | '-' :: p2 =>
                  match getEsc p2 with
                  | none => none
                  | some (hi, p3) => classRangesAux fuel p3 (nr + 1) ((lo, hi) :: acc)
              | _ => classRangesAux fuel p1 (nr + 1) ((lo, lo) :: acc)

/-- Parse a glob pattern into tokens; `none` on a malformed pattern.  The
fuel argument is instantiated with the pattern length, which bounds the
number of tokens. -/
def parseGlobAux : Nat → GoStr → Option (List GlobTok)
  | _, [] => some []
  | 0, _ :: _ => none
  | fuel + 1, c :: p =>
      if c = '*' then (parseGlobAux fuel p).map (fun ts => GlobTok.star :: ts)
      else if c = '?' then (parseGlobAux fuel p).map (fun ts => GlobTok.anyChar :: ts)
      else if c = '[' then
        let negp : Bool × GoStr :=
          match p with
          | '^' :: rest => (true, rest)
          | _ => (false, p)
        match classRangesAux (negp.2.length + 1) negp.2 0 [] with
        | none => none
        | some (rs, rest) =>
            (parseGlobAux fuel rest).map (fun ts => GlobTok.cls negp.1 rs :: ts)
      else if c = '\\' then
        match p with
        | [] => none
        | e :: p' => (parseGlobAux fuel p').map (fun ts => GlobTok.lit e :: ts)
      else (parseGlobAux fuel p).map (fun ts => GlobTok.lit c :: ts)

/-- Does a character fall in one of the ranges of a class? -/
def inRanges (rs : List (Char × Char)) (c : Char) : Bool :=
  rs.any (fun lh => decide (lh.1 ≤ c ∧ c ≤ lh.2))

/-- Match a token list against a name; each recursive call shrinks the
total length of the two arguments by at least one, so the fuel supplied by
`globMatchTok` below can never run out. -/
def globMatchTokAux : Nat → List GlobTok → GoStr → Bool
  | 0, _, _ => false
  | _ + 1, [], n => n.isEmpty
  | fuel + 1, GlobTok.star :: ts, n =>
      globMatchTokAux fuel ts n ||
        (match n with
         | [] => false
         | c :: n' => c ≠ '/' && globMatchTokAux fuel (GlobTok.star :: ts) n')
  | fuel + 1, GlobTok.anyChar :: ts, n =>
      match n with
      | [] => false
      | c :: n' => c ≠ '/' && globMatchTokAux fuel ts n'
  | fuel + 1, GlobTok.lit a :: ts, n =>
      match n with
      | [] => false
      | c :: n' => a = c && globMatchTokAux fuel ts n'
  | fuel + 1, GlobTok.cls neg rs :: ts, n =>
      match n with
      | [] => false
      | c :: n' => (inRanges rs c != neg) && globMatchTokAux fuel ts n'

/-- Match a token list against a name.  `*` matches any run of
non-separator characters and `?` a single non-separator character, as in
filepath.Match. -/
def globMatchTok (ts : List GlobTok) (n : GoStr) : Bool :=
  globMatchTokAux (ts.length + n.length + 1) ts n

/-- Model of filepath.Match restricted to its boolean result; a malformed
pattern yields `false` (main.go ignores the error return). -/
def filepath_Match (pattern name : GoStr) : Bool :=
  match parseGlobAux pattern.length pattern with
  | none => false
  | some ts => globMatchTok ts name

/-! ## The classifier (main.go: anyPatternMatch, extMatches,
mimePrefixMatches, chooseRule, hasIgnoredExt) -/

/-- Model of anyPatternMatch: any glob pattern matches the base name. -/
def anyPatternMatch (name : GoStr) (patterns : List GoStr) : Bool :=
  if patterns.isEmpty then false
  else patterns.any (fun g => filepath_Match g name)

/-- Model of extMatches: the lower-cased, dot-stripped extension of `name`
equals (case-insensitively) one of the configured extensions. -/
def extMatches (name : GoStr) (exts : List GoStr) : Bool :=
  if exts.isEmpty then false
  else
    let ext := strings_TrimPre (strings_ToLower (filepath_Ext name)) ['.']
    exts.any (fun e => strings_EqualFold e ext)

/-- Model of mimePrefixMatches: some configured prefix is a (byte-exact)
prefix of the detected MIME type. -/
def mimePrefixMatches (mt : GoStr) (prefixes : List GoStr) : Bool :=
  if prefixes.isEmpty || mt.isEmpty then false
  else prefixes.any (fun p => strings_HasPre mt p)

/-- Model of hasIgnoredExt: the lower-cased extension equals one of the
ignored extensions, case-insensitively. -/
def hasIgnoredExt (path : GoStr) (ignores : List GoStr) : Bool :=
  let ext := strings_ToLower (filepath_Ext path)
  ignores.any (fun ig => strings_EqualFold ext ig)

/-- One routing rule (main.go's Rule; yaml metadata dropped). -/
structure Rule where
  name : GoStr
  patterns : List GoStr
  extensions : List GoStr
  mimePrefixes : List GoStr
  action : GoStr
  dest : GoStr
  skipDuplicates : Bool
  webdavUpload : Bool
  webdavPath : GoStr
deriving DecidableEq

/-- The per-rule match criterion used inside chooseRule's loop. -/
def ruleMatches (base mt : GoStr) (r : Rule) : Bool :=
  anyPatternMatch base r.patterns || extMatches base r.extensions ||
    mimePrefixMatches mt r.mimePrefixes

/-- Model of chooseRule.  main.go computes `base := filepath.Base(path)` and
`mt := detectMIME(path)`; MIME detection reads the file, so the detected
type is passed in as `mt`. -/
def chooseRule (path : GoStr) (mt : GoStr) : List Rule → Option Rule
  | [] => none
  | r :: rs =>
      if ruleMatches (filepath_Base path) mt r then some r
      else chooseRule path mt rs

/-! ## Case-folding lemmas -/

/-- Packing a scalar value below the surrogate range and unpacking it is the
identity. -/
theorem char_toNat_ofNat_valid (n : Nat) (h1 : n < 55296) : (Char.ofNat n).toNat = n := by
  have hv : n.isValidChar := Or.inl h1
  simp [Char.ofNat, hv, Char.ofNatAux, Char.toNat, UInt32.toNat, BitVec.toNat_ofNatLt]

/-- ASCII lowering can only produce a non-letter character from that same
character. -/
theorem char_toLower_eq_special (c : Char) (d : Char) (hd1 : d.toNat < 65 ∨ 122 < d.toNat) :
    Char.toLower c = d ↔ c = d := by
  unfold Char.toLower
  simp only []
  split
  case isTrue h =>
    constructor
    · intro he
      have h2 := congrArg Char.toNat he
      rw [char_toNat_ofNat_valid (c.toNat + 32) (by omega)] at h2
      omega
    · intro he
      subst he
      omega
  case isFalse h => exact Iff.rfl

/-- The extension scanner commutes with ASCII lowering, because lowering
fixes `/` and `.` and maps no letter to them. -/
theorem extRevScan_map_toLower (s : GoStr) :
    extRevScan (s.map Char.toLower) = (extRevScan s).map (List.map Char.toLower) := by
  induction s with
  | nil => rfl
  | cons c rest ih =>
      simp only [List.map_cons, extRevScan]
      by_cases h1 : c = '/'
      · subst h1
        rw [if_pos (show Char.toLower '/' = '/' from by decide), if_pos rfl]
        rfl
      · have h1' : ¬Char.toLower c = '/' := fun he =>
          h1 ((char_toLower_eq_special c '/' (by decide)).mp he)
        rw [if_neg h1', if_neg h1]
        by_cases h2 : c = '.'
        · subst h2
          rw [if_pos (show Char.toLower '.' = '.' from by decide), if_pos rfl]
          rfl
        · have h2' : ¬Char.toLower c = '.' := fun he =>
            h2 ((char_toLower_eq_special c '.' (by decide)).mp he)
          rw [if_neg h2', if_neg h2, ih]
          cases extRevScan rest <;> rfl

/-- filepath.Ext commutes with strings.ToLower. -/
theorem filepath_Ext_toLower (s : GoStr) :
    filepath_Ext (strings_ToLower s) = strings_ToLower (filepath_Ext s) := by
  unfold filepath_Ext strings_ToLower
  rw [← List.map_reverse, extRevScan_map_toLower]
  cases extRevScan s.reverse with
  | none => rfl
  | some l => simp

/-- C8 (amended): extension matching is case-insensitive — its result only
depends on the case-folded file name and case-folded extension list — while
glob matching and MIME-prefix matching are case-sensitive, witnessed by
case-variant inputs that produce different results. -/
theorem matching_case_sensitivity :
    (∀ name name' : GoStr, ∀ exts exts' : List GoStr,
        strings_ToLower name = strings_ToLower name' →
        exts.map strings_ToLower = exts'.map strings_ToLower →
        extMatches name exts = extMatches name' exts')
    ∧ (filepath_Match (gs "*.pdf") (gs "file.pdf") = true ∧
       filepath_Match (gs "*.pdf") (gs "File.PDF") = false)
    ∧ (mimePrefixMatches (gs "image/png") [gs "image/"] = true ∧
       mimePrefixMatches (gs "IMAGE/png") [gs "image/"] = false) := by
  refine ⟨?_, by decide, by decide⟩
  intro name name' exts exts' hname hexts
  have hext : strings_TrimPre (strings_ToLower (filepath_Ext name)) ['.'] =
      strings_TrimPre (strings_ToLower (filepath_Ext name')) ['.'] := by
    rw [← filepath_Ext_toLower, ← filepath_Ext_toLower, hname]
  have hempty : exts.isEmpty = exts'.isEmpty := by
    have hlen : exts.length = exts'.length := by
      have := congrArg List.length hexts
      simpa using this
    cases exts <;> cases exts' <;> simp_all
  unfold extMatches
  rw [hempty, hext]
  by_cases he : exts'.isEmpty
  · simp [he]
  · simp only [he, if_false]
    set t := strings_TrimPre (strings_ToLower (filepath_Ext name')) ['.'] with ht
    have key : ∀ l : List GoStr,
        l.any (fun e => strings_EqualFold e t) =
        (l.map strings_ToLower).any (fun u => u == t.map Char.toLower) := by
      intro l
      rw [List.any_map]
      rfl
    rw [key exts, key exts', hexts]

/-- C8 counterexample: MIME-prefix matching distinguishes two detected types
that differ only in letter case, so it is not case-insensitive as claimed. -/
theorem mimePrefixMatches_case_counterexample :
    strings_ToLower (gs "IMAGE/png") = strings_ToLower (gs "image/png") ∧
    mimePrefixMatches (gs "image/png") [gs "image/"] = true ∧
    mimePrefixMatches (gs "IMAGE/png") [gs "image/"] = false := by
  refine ⟨by decide, by decide, by decide⟩

/-- Witness: the case-insensitivity statement applied at concrete inputs. -/
theorem matching_case_sensitivity_witness :
    extMatches (gs "Image.JPG") [gs "jpg"] = extMatches (gs "image.jpg") [gs "JPG"] ∧
    extMatches (gs "Image.JPG") [gs "jpg"] = true :=
  ⟨matching_case_sensitivity.1 (gs "Image.JPG") (gs "image.jpg") [gs "jpg"] [gs "JPG"]
      (by decide) (by decide),
   by decide⟩

/-- C3: chooseRule returns the first rule in declared order whose glob,
extension, or MIME-prefix criteria match — never a later rule when an
earlier one matches — and returns no match (not an error) when no rule
applies. -/
theorem chooseRule_first_match (path mt : GoStr) (rules : List Rule) :
    (∀ r : Rule, chooseRule path mt rules = some r ↔
       ∃ pre post, rules = pre ++ r :: post ∧
         ruleMatches (filepath_Base path) mt r = true ∧
         ∀ r' ∈ pre, ruleMatches (filepath_Base path) mt r' = false)
    ∧ (chooseRule path mt rules = none ↔
       ∀ r ∈ rules, ruleMatches (filepath_Base path) mt r = false) := by
  induction rules with
  | nil =>
      constructor
      · intro r
        constructor
        · intro h
          simp [chooseRule] at h
        · rintro ⟨pre, post, he, -, -⟩
          cases pre <;> simp at he
      · simp [chooseRule]
  | cons a rs ih =>
      constructor
      · intro r
        constructor
        · intro h
          by_cases hm : ruleMatches (filepath_Base path) mt a = true
          · have ha : a = r := by
              have : some a = some r := by simpa [chooseRule, hm] using h
              exact Option.some.inj this
            subst ha
            exact ⟨[], rs, rfl, hm, by simp⟩
          · have h' : chooseRule path mt rs = some r := by
              simpa [chooseRule, hm] using h
            obtain ⟨pre, post, he, hr, hpre⟩ := (ih.1 r).mp h'
            refine ⟨a :: pre, post, by simp [he], hr, ?_⟩
            intro r' hr'
            rcases List.mem_cons.mp hr' with h1 | h1
            · subst h1
              exact Bool.not_eq_true _ ▸ eq_false_of_ne_true hm
            · exact hpre r' h1
        · rintro ⟨pre, post, he, hr, hpre⟩
          cases pre with
          | nil =>
              have ha : a = r := by
                have := congrArg (fun l => List.head? l) he
                simpa using this
              subst ha
              have hrs : rs = post := by
                have := congrArg (fun l => List.tail l) he
                simpa using this
              simp [chooseRule, hr]
          | cons p pre' =>
              have hap : a = p ∧ rs = pre' ++ r :: post := by
                constructor
                · have := congrArg (fun l => List.head? l) he
                  simpa using this
                · have := congrArg (fun l => List.tail l) he
                  simpa using this
              have hpm : ruleMatches (filepath_Base path) mt a = false := by
                rw [hap.1]
                exact hpre p (by simp)
              rw [chooseRule, hpm]
              simp only [Bool.false_eq_true, if_false]
              exact (ih.1 r).mpr ⟨pre', post, hap.2, hr, fun r' h' => hpre r' (by simp [h'])⟩
      · rw [chooseRule]
        by_cases hm : ruleMatches (filepath_Base path) mt a = true
        · simp [hm]
        · have hmf : ruleMatches (filepath_Base path) mt a = false :=
            eq_false_of_ne_true hm
          simp only [hmf, Bool.false_eq_true, if_false]
          rw [ih.2]
          constructor
          · intro h r hr
            rcases List.mem_cons.mp hr with h1 | h1
            · subst h1; exact hmf
            · exact h r h1
          · intro h r hr
            exact h r (by simp [hr])

/-! ## Home expansion (main.go: expandHome) -/

/-- Model of expandHome.  `home` is the result of os.UserHomeDir (`none`
models its failure). -/
def expandHome (home : Option GoStr) (p : GoStr) : Option GoStr :=
  if p = [] then some p
  else if strings_HasPre p ['~'] then
    match home with
    | none => none
    | some h =>
        if p = ['~'] then some h
        else some (filepath_Join2 h (strings_TrimPre p ['~', '/']))
  else some p

/-- C10: a path that starts with a tilde but is neither exactly "~" nor
prefixed by "~/" is expanded, without error, to the current user's home
directory joined with the entire remainder, leading tilde included. -/
theorem expandHome_bare_tilde_user (home p : GoStr)
    (h1 : strings_HasPre p ['~'] = true)
    (h2 : strings_HasPre p ['~', '/'] = false)
    (h3 : p ≠ ['~']) :
    expandHome (some home) p = some (filepath_Join2 home p) := by
  have hne : p ≠ [] := by
    intro h
    subst h
    simp [strings_HasPre, List.isPrefixOf] at h1
  have htrim : strings_TrimPre p ['~', '/'] = p := by
    unfold strings_TrimPre
    unfold strings_HasPre at h2
    simp [h2]
  unfold expandHome
  rw [if_neg hne]
  simp only [h1, if_true, if_neg h3, htrim]

/-- Witness: "~alice/docs" with home "/home/user" expands to
"/home/user/~alice/docs". -/
theorem expandHome_bare_tilde_user_witness :
    expandHome (some (gs "/home/user")) (gs "~alice/docs") =
      some (gs "/home/user/~alice/docs") := by
  have h := expandHome_bare_tilde_user (gs "/home/user") (gs "~alice/docs")
    (by decide) (by decide) (by decide)
  rw [h]
  decide

/-! ## The stability detector (main.go: waitUntilStable)

Sizes observed by successive os.Stat calls are supplied as a function of
the sample index (`none` models a stat failure).  Durations are in
milliseconds; after `n` sleeps of the poll interval the elapsed wall-clock
time is `n * poll`, and the 5-minute safety deadline is the constant
300000 ms from the call's start. -/

/-- Outcome of the stability wait, carrying the number of stat samples the
call made. -/
inductive StableResult where
  | stable (samples : Nat)
  | statError (samples : Nat)
  | timeout (samples : Nat)
deriving DecidableEq

/-- The loop of waitUntilStable.  Arguments mirror the Go locals: last
observed size (initially -1), accumulated stable duration, elapsed time,
and the sample counter.  The fuel argument only bounds recursion depth;
`waitUntilStable` supplies enough for every positive poll interval. -/
def waitAux (sizes : Nat → Option Int) (settle poll : Nat) :
    Nat → Int → Nat → Nat → Nat → Option StableResult
  | 0, _, _, _, _ => none
  | fuel + 1, lastSize, stableFor, elapsed, n =>
      if 300000 ≤ elapsed then some (StableResult.timeout n)
      else
        match sizes n with
        | none => some (StableResult.statError (n + 1))
        | some size =>
            if size = lastSize then
              if settle ≤ stableFor + poll then some (StableResult.stable (n + 1))
              else waitAux sizes settle poll fuel lastSize (stableFor + poll)
                (elapsed + poll) (n + 1)
            else waitAux sizes settle poll fuel size 0 (elapsed + poll) (n + 1)

/-- Model of waitUntilStable. -/
def waitUntilStable (sizes : Nat → Option Int) (settle poll : Nat) : Option StableResult :=
  waitAux sizes settle poll 300001 (-1) 0 0 0

/-- Once the baseline equals the constant observed size, the loop declares
stability exactly when the accumulated duration reaches the settle window. -/
theorem waitAux_const (c : Int) (settle poll : Nat) (sizes : Nat → Option Int)
    (hsz : ∀ m, sizes m = some c) :
    ∀ j fuel stableFor elapsed n,
      settle ≤ stableFor + (j + 1) * poll →
      stableFor + j * poll < settle →
      elapsed + j * poll < 300000 →
      j + 1 ≤ fuel →
      waitAux sizes settle poll fuel c stableFor elapsed n =
        some (StableResult.stable (n + (j + 1))) := by
  intro j
  induction j with
  | zero =>
      intro fuel stableFor elapsed n h1 h2 h3 hf
      match fuel, hf with
      | f + 1, _ =>
        have hdl : ¬ (300000 ≤ elapsed) := by omega
        have hst : settle ≤ stableFor + poll := by
          have := Nat.one_mul poll
          omega
        rw [waitAux, if_neg hdl]
        simp only [hsz, eq_self_iff_true, if_true, if_pos hst, Nat.zero_add]
  | succ j ih =>
      intro fuel stableFor elapsed n h1 h2 h3 hf
      have hsm1 : (j + 1) * poll = j * poll + poll := Nat.succ_mul j poll
      have hsm2 : (j + 1 + 1) * poll = (j + 1) * poll + poll := Nat.succ_mul (j + 1) poll
      match fuel, hf with
      | f + 1, hf' =>
        have hdl : ¬ (300000 ≤ elapsed) := by omega
        have hst : ¬ (settle ≤ stableFor + poll) := by omega
        rw [waitAux, if_neg hdl]
        simp only [hsz, eq_self_iff_true, if_true, if_neg hst]
        have h := ih f (stableFor + poll) (elapsed + poll) (n + 1)
          (by omega) (by omega) (by omega) (by omega)
        rw [h]
        have he : n + 1 + (j + 1) = n + (j + 1 + 1) := by omega
        rw [he]

/-- When every sample differs from the previous one, the loop never
stabilizes and times out once the elapsed time crosses the fixed deadline. -/
theorem waitAux_changing (szs : Nat → Int) (settle poll : Nat)
    (h0 : 0 ≤ szs 0) (hchg : ∀ m, szs (m + 1) ≠ szs m) :
    ∀ k fuel elapsed n lastSize stableFor,
      lastSize = (if n = 0 then (-1 : Int) else szs (n - 1)) →
      300000 ≤ elapsed + k * poll →
      (k = 0 ∨ elapsed + (k - 1) * poll < 300000) →
      k + 1 ≤ fuel →
      waitAux (fun m => some (szs m)) settle poll fuel lastSize stableFor elapsed n =
        some (StableResult.timeout (n + k)) := by
  intro k
  induction k with
  | zero =>
      intro fuel elapsed n lastSize stableFor hinv h1 h2 hf
      match fuel, hf with
      | f + 1, _ =>
        have hdl : 300000 ≤ elapsed := by omega
        rw [waitAux, if_pos hdl, Nat.add_zero]
  | succ k ih =>
      intro fuel elapsed n lastSize stableFor hinv h1 h2 hf
      have hsm1 : (k + 1) * poll = k * poll + poll := Nat.succ_mul k poll
      have h2' : elapsed + k * poll < 300000 := by
        rcases h2 with h | h
        · omega
        · have hk : k + 1 - 1 = k := by omega
          rw [hk] at h
          exact h
      have hne : ¬ (szs n = lastSize) := by
        by_cases hn : n = 0
        · subst hn
          have hm1 : lastSize = -1 := by
            rw [hinv]
            simp
          rw [hm1]
          intro h
          omega
        · rw [hinv, if_neg hn]
          have he : n - 1 + 1 = n := by omega
          rw [← he]
          exact hchg (n - 1)
      match fuel, hf with
      | f + 1, _ =>
        have hdl : ¬ (300000 ≤ elapsed) := by omega
        rw [waitAux, if_neg hdl]
        simp only [if_neg hne]
        have h := ih f (elapsed + poll) (n + 1) (szs n) 0
          (by simp) (by omega)
          (by
            rcases Nat.eq_zero_or_pos k with hk | hk
            · exact Or.inl hk
            · right
              have hkk : k - 1 + 1 = k := by omega
              have hsm3 : (k - 1 + 1) * poll = (k - 1) * poll + poll :=
                Nat.succ_mul (k - 1) poll
              rw [hkk] at hsm3
              omega)
          (by omega)
        rw [h]
        have he : n + 1 + k = n + (k + 1) := by omega
        rw [he]

/-- C6 (amended): a file whose observed size is the same at every sample is
declared stable after 1 + ceil(settle/poll) samples (one baseline sample
plus ceil(settle/poll) confirming samples), provided that point is reached
before the deadline; a file whose size differs at every sample is never
declared stable and fails with a timeout when the elapsed time crosses the
fixed 300000 ms (5-minute) ceiling, a constant independent of the
configured settle and poll values. -/
theorem waitUntilStable_spec :
    (∀ settle poll : Nat, ∀ c : Int, 1 ≤ poll → 1 ≤ settle → 0 ≤ c →
        ((settle + poll - 1) / poll) * poll < 300000 →
        waitUntilStable (fun _ => some c) settle poll =
          some (StableResult.stable (1 + (settle + poll - 1) / poll)))
    ∧ (∀ settle poll : Nat, ∀ szs : Nat → Int, 1 ≤ poll →
        (∀ n, 0 ≤ szs n) → (∀ n, szs (n + 1) ≠ szs n) →
        waitUntilStable (fun n => some (szs n)) settle poll =
          some (StableResult.timeout ((300000 + poll - 1) / poll))) := by
  constructor
  · intro settle poll c hp hs hc hd
    have hdm := Nat.div_add_mod (settle + poll - 1) poll
    have hmlt : (settle + poll - 1) % poll < poll := Nat.mod_lt _ (by omega)
    generalize hq : (settle + poll - 1) / poll = q at hdm hd ⊢
    have hcomm : poll * q = q * poll := Nat.mul_comm poll q
    have hle : settle ≤ q * poll := by omega
    have hq1 : 1 ≤ q := by
      rcases Nat.eq_zero_or_pos q with h | h
      · rw [h, Nat.zero_mul] at hle
        omega
      · exact h
    obtain ⟨j, hj⟩ : ∃ j, q = j + 1 := ⟨q - 1, by omega⟩
    have hsm : (j + 1) * poll = j * poll + poll := Nat.succ_mul j poll
    have hq2 : q * poll = j * poll + poll := by
      rw [hj, hsm]
    have hjlt : j * poll < settle := by omega
    have hqle : q ≤ q * poll := Nat.le_mul_of_pos_right q (by omega)
    have h := waitAux_const c settle poll (fun _ => some c) (fun _ => rfl)
      j 300000 0 poll 1 (by omega) (by omega) (by omega) (by omega)
    have hdl0 : ¬ ((300000 : Nat) ≤ 0) := by omega
    have hfirst : ¬ (c = -1) := by omega
    rw [waitUntilStable, waitAux, if_neg hdl0]
    simp only [if_neg hfirst, Nat.zero_add]
    rw [h, hj]
  · intro settle poll szs hp h0 hchg
    have hdm := Nat.div_add_mod (300000 + poll - 1) poll
    have hmlt : (300000 + poll - 1) % poll < poll := Nat.mod_lt _ (by omega)
    generalize hN : (300000 + poll - 1) / poll = N at hdm ⊢
    have hcomm : poll * N = N * poll := Nat.mul_comm poll N
    have hge : 300000 ≤ N * poll := by omega
    have hN1 : 1 ≤ N := by
      rcases Nat.eq_zero_or_pos N with h | h
      · rw [h, Nat.zero_mul] at hge
        omega
      · exact h
    have hsm : (N - 1 + 1) * poll = (N - 1) * poll + poll := Nat.succ_mul (N - 1) poll
    have hNN : N - 1 + 1 = N := by omega
    rw [hNN] at hsm
    have hlt : (N - 1) * poll < 300000 := by omega
    have hNle : N ≤ 300000 := by
      have hqle : N - 1 ≤ (N - 1) * poll := Nat.le_mul_of_pos_right (N - 1) (by omega)
      omega
    have h := waitAux_changing szs settle poll (h0 0) hchg
      N 300001 0 0 (-1) 0 (by simp) (by omega) (Or.inr (by omega))
      (Nat.add_le_add_right hNle 1)
    rw [waitUntilStable, h]
    simp

/-! ## Destination disambiguation (main.go: uniquePath)

The filesystem is abstracted by the outcome of os.Stat per path: `ex p`
is true when os.Stat(p) succeeds. -/

/-- The numbered-variant file name produced by
fmt.Sprintf with the format "%s (%d)%s". -/
def numberedName (stem : GoStr) (i : Nat) (ext : GoStr) : GoStr :=
  stem ++ gs " (" ++ (toString i).toList ++ gs ")" ++ ext

/-- The candidate path probed at index `i` by uniquePath's loop: the
destination's directory joined with the numbered variant of its base name,
the numeric disambiguator inserted before the extension. -/
def uniqueCandidate (dst : GoStr) (i : Nat) : GoStr :=
  let dir := filepath_Dir dst
  let base := filepath_Base dst
  let ext := filepath_Ext base
  let stem := strings_TrimSuffix base ext
  filepath_Join2 dir (numberedName stem i ext)

/-- The loop of uniquePath: the first free numbered candidate from `i`
upward (bound 10000 exclusive); `none` when every slot is occupied.  The
fuel only bounds recursion depth and uniquePath supplies enough. -/
def uniquePathAux (ex : GoStr → Bool) (dst : GoStr) : Nat → Nat → Option GoStr
  | _, 0 => none
  | i, fuel + 1 =>
      if i < 10000 then
        if ex (uniqueCandidate dst i) then uniquePathAux ex dst (i + 1) fuel
        else some (uniqueCandidate dst i)
      else none

/-- Model of uniquePath: `dst` itself when its stat fails, otherwise the
first free numbered variant, falling back to the fixed ".dup" suffix when
the loop finds no free slot. -/
def uniquePath (ex : GoStr → Bool) (dst : GoStr) : GoStr :=
  if ex dst then
    match uniquePathAux ex dst 2 10000 with
    | some c => c
    | none => dst ++ gs ".dup"
  else dst

/-- The loop returns the first free candidate. -/
theorem uniquePathAux_finds (ex : GoStr → Bool) (dst : GoStr) (i0 : Nat)
    (h0 : i0 < 10000) (hfree : ex (uniqueCandidate dst i0) = false) :
    ∀ fuel i, i ≤ i0 → i0 - i < fuel →
      (∀ j, i ≤ j → j < i0 → ex (uniqueCandidate dst j) = true) →
      uniquePathAux ex dst i fuel = some (uniqueCandidate dst i0) := by
  intro fuel
  induction fuel with
  | zero =>
      intro i hi hfu hocc
      omega
  | succ fuel ih =>
      intro i hi hfu hocc
      rw [uniquePathAux, if_pos (show i < 10000 by omega)]
      by_cases hii : i = i0
      · subst hii
        simp only [hfree, Bool.false_eq_true, if_false]
      · have hlt : i < i0 := by omega
        simp only [hocc i (Nat.le_refl i) hlt, if_true]
        exact ih (i + 1) (by omega) (by omega) (fun j h1 h2 => hocc j (by omega) h2)

/-- When every slot from `i` on is occupied the loop finds nothing. -/
theorem uniquePathAux_none (ex : GoStr → Bool) (dst : GoStr) :
    ∀ fuel i, (∀ j, i ≤ j → j < 10000 → ex (uniqueCandidate dst j) = true) →
      uniquePathAux ex dst i fuel = none := by
  intro fuel
  induction fuel with
  | zero =>
      intro i hocc
      rfl
  | succ fuel ih =>
      intro i hocc
      rw [uniquePathAux]
      by_cases hi : i < 10000
      · rw [if_pos hi]
        simp only [hocc i (Nat.le_refl i) hi, if_true]
        exact ih (i + 1) (fun j h1 h2 => hocc j (by omega) h2)
      · rw [if_neg hi]

/-- C7 (amended): uniquePath keeps a free destination name, otherwise
returns the first free numbered variant in sequence — never the path of an
existing file as long as some numbered slot below 10000 is free — and when
the destination and every numbered variant up to 9999 are occupied it
falls back to the fixed ".dup" suffix, which may itself name an existing
file. -/
theorem uniquePath_spec (ex : GoStr → Bool) (dst : GoStr) :
    (ex dst = false → uniquePath ex dst = dst)
    ∧ (∀ i0 : Nat, ex dst = true → 2 ≤ i0 → i0 < 10000 →
        ex (uniqueCandidate dst i0) = false →
        (∀ j, 2 ≤ j → j < i0 → ex (uniqueCandidate dst j) = true) →
        uniquePath ex dst = uniqueCandidate dst i0 ∧
          ex (uniquePath ex dst) = false)
    ∧ (ex dst = true →
        (∀ j, 2 ≤ j → j < 10000 → ex (uniqueCandidate dst j) = true) →
        uniquePath ex dst = dst ++ gs ".dup") := by
  refine ⟨?_, ?_, ?_⟩
  · intro h
    unfold uniquePath
    simp only [h, Bool.false_eq_true, if_false]
  · intro i0 hdst h2 h10 hfree hocc
    have hloop := uniquePathAux_finds ex dst i0 h10 hfree 10000 2 h2 (by omega)
      (fun j hj1 hj2 => hocc j hj1 hj2)
    have hres : uniquePath ex dst = uniqueCandidate dst i0 := by
      unfold uniquePath
      simp only [hdst, if_true, hloop]
    exact ⟨hres, by rw [hres]; exact hfree⟩
  · intro hdst hocc
    have hloop := uniquePathAux_none ex dst 10000 2 (fun j hj1 hj2 => hocc j hj1 hj2)
    unfold uniquePath
    simp only [hdst, if_true, hloop]

/-- C7 counterexample: when the destination, every numbered variant up to
9999, and the fallback name itself all exist, uniquePath returns the
existing ".dup" path — so "never returns the path of an already-existing
file" fails in the saturated case. -/
theorem uniquePath_dup_counterexample :
    uniquePath (fun _ => true) (gs "/d/name.ext") = gs "/d/name.ext" ++ gs ".dup" ∧
    (fun _ => true) (gs "/d/name.ext" ++ gs ".dup") = true := by
  constructor
  · have hloop := uniquePathAux_none (fun _ => true) (gs "/d/name.ext") 10000 2
      (fun j hj1 hj2 => rfl)
    unfold uniquePath
    simp only [if_true, hloop]
  · rfl

/-- The occupied filesystem for the C7 witness: the destination name and
its first numbered variant exist, nothing else does. -/
def exTwoTaken : GoStr → Bool :=
  fun p => p == gs "/d/name.ext" || p == gs "/d/name (2).ext"

/-- Witness: with "name.ext" and "name (2).ext" occupied, uniquePath picks
"name (3).ext", a non-existing file. -/
theorem uniquePath_spec_witness :
    uniquePath exTwoTaken (gs "/d/name.ext") = gs "/d/name (3).ext" ∧
    exTwoTaken (gs "/d/name (3).ext") = false := by
  have h := (uniquePath_spec exTwoTaken (gs "/d/name.ext")).2.1 3 (by decide)
    (by decide) (by decide) (by decide)
    (by
      intro j hj1 hj2
      have hj : j = 2 := by omega
      subst hj
      decide)
  refine ⟨?_, ?_⟩
  · rw [h.1]
    decide
  · decide

/-! ## Duplicate detection (main.go: fileExistsWithSameSize)

`stat p = some size` models a successful os.Stat of path `p` in the
destination directory; `none` models a stat error (no such file). -/

/-- The numbered variant of a base name: the numeric disambiguator inserted
before the extension, as in fileExistsWithSameSize's loop. -/
def variantName (baseName : GoStr) (i : Nat) : GoStr :=
  numberedName (strings_TrimSuffix baseName (filepath_Ext baseName)) i
    (filepath_Ext baseName)

/-- The loop of fileExistsWithSameSize over numbered variants: breaks
(returning false) at the first variant whose stat fails, returns true at
the first variant whose size equals the positive source size. -/
def fileExistsAux (stat : GoStr → Option Int) (destDir baseName : GoStr)
    (srcSize : Int) : Nat → Nat → Bool
  | _, 0 => false
  | i, fuel + 1 =>
      if i < 10000 then
        match stat (filepath_Join2 destDir (variantName baseName i)) with
        | none => false
        | some sz =>
            if sz = srcSize ∧ 0 < srcSize then true
            else fileExistsAux stat destDir baseName srcSize (i + 1) fuel
      else false

/-- Model of fileExistsWithSameSize.  `srcStat` is the os.Stat result for
the source path (`none` = error, yielding false). -/
def fileExistsWithSameSize (srcStat : Option Int) (stat : GoStr → Option Int)
    (srcPath destDir : GoStr) : Bool :=
  match srcStat with
  | none => false
  | some srcSize =>
      let baseName := filepath_Base srcPath
      let exactHit : Bool :=
        match stat (filepath_Join2 destDir baseName) with
        | none => false
        | some sz => decide (sz = srcSize ∧ 0 < srcSize)
      if exactHit then true
      else fileExistsAux stat destDir baseName srcSize 2 10000

/-- What the variant loop decides: some variant matches the positive source
size and every variant at an index between the loop start and it exists. -/
theorem fileExistsAux_true_iff (stat : GoStr → Option Int)
    (destDir baseName : GoStr) (srcSize : Int) :
    ∀ fuel i, 10000 ≤ i + fuel →
      (fileExistsAux stat destDir baseName srcSize i fuel = true ↔
        ∃ k, i ≤ k ∧ k < 10000 ∧
          stat (filepath_Join2 destDir (variantName baseName k)) = some srcSize ∧
          0 < srcSize ∧
          ∀ j, i ≤ j → j ≤ k →
            (stat (filepath_Join2 destDir (variantName baseName j))).isSome = true) := by
  intro fuel
  induction fuel with
  | zero =>
      intro i hge
      rw [fileExistsAux]
      constructor
      · intro h
        exact absurd h (by simp)
      · rintro ⟨k, hik, hk, -, -, -⟩
        omega
  | succ fuel ih =>
      intro i hge
      rw [fileExistsAux]
      by_cases hi : i < 10000
      · rw [if_pos hi]
        cases hstat : stat (filepath_Join2 destDir (variantName baseName i)) with
        | none =>
            simp only []
            constructor
            · intro h
              exact absurd h (by simp)
            · rintro ⟨k, hik, hk, hsz, hpos, hall⟩
              have := hall i (Nat.le_refl i) hik
              rw [hstat] at this
              simp at this
        | some sz =>
            simp only []
            by_cases hcond : sz = srcSize ∧ 0 < srcSize
            · rw [if_pos hcond]
              constructor
              · intro _
                refine ⟨i, Nat.le_refl i, hi, ?_, hcond.2, ?_⟩
                · rw [hstat, hcond.1]
                · intro j hj1 hj2
                  have hj : j = i := by omega
                  subst hj
                  rw [hstat]
                  rfl
              · intro _
                rfl
            · rw [if_neg hcond]
              rw [ih (i + 1) (by omega)]
              constructor
              · rintro ⟨k, hik, hk, hsz, hpos, hall⟩
                refine ⟨k, by omega, hk, hsz, hpos, ?_⟩
                intro j hj1 hj2
                by_cases hj : j = i
                · subst hj
                  rw [hstat]
                  rfl
                · exact hall j (by omega) hj2
              · rintro ⟨k, hik, hk, hsz, hpos, hall⟩
                have hki : ¬ (k = i) := by
                  intro hk0
                  subst hk0
                  rw [hstat] at hsz
                  exact hcond ⟨Option.some.inj hsz, hpos⟩
                refine ⟨k, by omega, hk, hsz, hpos, ?_⟩
                intro j hj1 hj2
                exact hall j (by omega) hj2
      · rw [if_neg hi]
        constructor
        · intro h
          exact absurd h (by simp)
        · rintro ⟨k, hik, hk, -, -, -⟩
          omega

/-- C9 (amended): with a stat-able source of size srcSize the duplicate
check reports a duplicate iff the identically-named destination file has
the same positive size, or some numbered variant with index 2 ≤ i < 10000
has the same positive size and every variant with an index from 2 to i
exists (the scan stops at the first missing numbered variant, so matches
beyond a gap are not seen); a failed source stat reports no duplicate. -/
theorem fileExistsWithSameSize_spec (srcSize : Int) (stat : GoStr → Option Int)
    (srcPath destDir : GoStr) :
    (fileExistsWithSameSize (some srcSize) stat srcPath destDir = true ↔
      (stat (filepath_Join2 destDir (filepath_Base srcPath)) = some srcSize ∧
        0 < srcSize)
      ∨ (∃ i, 2 ≤ i ∧ i < 10000 ∧
          stat (filepath_Join2 destDir (variantName (filepath_Base srcPath) i)) =
            some srcSize ∧
          0 < srcSize ∧
          ∀ j, 2 ≤ j → j ≤ i →
            (stat (filepath_Join2 destDir (variantName (filepath_Base srcPath) j))).isSome
              = true))
    ∧ fileExistsWithSameSize none stat srcPath destDir = false := by
  constructor
  · unfold fileExistsWithSameSize
    simp only []
    cases hstat : stat (filepath_Join2 destDir (filepath_Base srcPath)) with
    | none =>
        simp only [Bool.false_eq_true, if_false]
        rw [fileExistsAux_true_iff stat destDir (filepath_Base srcPath) srcSize 10000 2
          (by omega)]
        constructor
        · intro h
          exact Or.inr h
        · rintro (⟨h, -⟩ | h)
          · exact absurd h (by simp)
          · exact h
    | some sz =>
        by_cases hcond : sz = srcSize ∧ 0 < srcSize
        · rw [if_pos (decide_eq_true hcond)]
          constructor
          · intro _
            exact Or.inl ⟨by rw [hcond.1], hcond.2⟩
          · intro _
            rfl
        · have hd : decide (sz = srcSize ∧ 0 < srcSize) = false := decide_eq_false hcond
          rw [if_neg (show ¬ (decide (sz = srcSize ∧ 0 < srcSize) = true) from by
            simp [hd])]
          rw [fileExistsAux_true_iff stat destDir (filepath_Base srcPath) srcSize 10000 2
            (by omega)]
          constructor
          · intro h
            exact Or.inr h
          · rintro (⟨h, hpos⟩ | h)
            · exact absurd ⟨Option.some.inj h, hpos⟩ hcond
            · exact h
  · rfl

/-- The destination directory for the C9 counterexample: only the variant
"name (3).ext" exists (with size 5); "name.ext" and "name (2).ext" do not. -/
def statGap : GoStr → Option Int :=
  fun p => if p = gs "/dest/name (3).ext" then some 5 else none

/-- C9 counterexample: a numbered variant with the source's positive size
exists ("name (3).ext", size 5), yet the check reports no duplicate,
because the scan breaks at the missing "name (2).ext". -/
theorem fileExistsWithSameSize_gap_counterexample :
    statGap (filepath_Join2 (gs "/dest") (variantName (gs "name.ext") 3)) = some 5 ∧
    (2 ≤ 3 ∧ 3 < 10000 ∧ (0 : Int) < 5) ∧
    fileExistsWithSameSize (some 5) statGap (gs "name.ext") (gs "/dest") = false := by
  refine ⟨by decide, by decide, by decide⟩

/-- The destination directory for the C9 witness: "name (2).ext" exists
with size 5. -/
def statFirstVariant : GoStr → Option Int :=
  fun p => if p = gs "/dest/name (2).ext" then some 5 else none

/-- Witness: the spec characterization applied at a concrete destination
directory in which the first numbered variant matches the source size. -/
theorem fileExistsWithSameSize_spec_witness :
    fileExistsWithSameSize (some 5) statFirstVariant (gs "name.ext") (gs "/dest") = true := by
  refine (fileExistsWithSameSize_spec 5 statFirstVariant (gs "name.ext")
    (gs "/dest")).1.mpr (Or.inr ⟨2, by decide, by decide, by decide, by decide, ?_⟩)
  intro j hj1 hj2
  have hj : j = 2 := by omega
  subst hj
  decide

/-! ## The transfer engine (main.go: atomicMove, copyTo)

A filesystem maps each path to `some content` (a byte list) or `none`.
Every OS call whose failure is independent of the modelled state draws its
outcome from an environment record; a file handle reads the content that
was present when the file was opened.  Only the final state is modelled:
intermediate writes to the temporary file are collapsed into the net
effect of each branch of the Go code. -/

/-- The filesystem view: path to file content. -/
abbrev FS := GoStr → Option (List Nat)

/-- Point update of a filesystem. -/
def fsSet (fs : FS) (p : GoStr) (v : Option (List Nat)) : FS :=
  fun q => if q = p then v else fs q

/-- Outcomes of the OS calls made by atomicMove, in program order.
`copyFail = some k` means io.Copy fails after writing `k` bytes. -/
structure MoveEnv where
  renameOk : Bool
  openOk : Bool
  mkdirOk : Bool
  createOk : Bool
  copyFail : Option Nat
  syncOk : Bool
  closeOk : Bool
  rename2Ok : Bool
  removeSrcOk : Bool

/-- Model of atomicMove: try a rename; on failure open the source, ensure
the destination directory, create dst+".tmp" (truncating), copy, sync,
close, rename the temporary onto dst, and finally remove the source.  Each
failing step after the creation removes the temporary file. -/
def atomicMove (env : MoveEnv) (fs : FS) (src dst : GoStr) : FS × Bool :=
  match fs src with
  | none => (fs, false)
  | some content =>
      if env.renameOk then
        (fsSet (fsSet fs src none) dst (some content), true)
      else if !env.openOk then (fs, false)
      else if !env.mkdirOk then (fs, false)
      else if !env.createOk then (fs, false)
      else
        match env.copyFail with
        | some _ => (fsSet fs (dst ++ gs ".tmp") none, false)
        | none =>
            if !env.syncOk then (fsSet fs (dst ++ gs ".tmp") none, false)
            else if !env.closeOk then (fsSet fs (dst ++ gs ".tmp") none, false)
            else if !env.rename2Ok then (fsSet fs (dst ++ gs ".tmp") none, false)
            else
              let fs1 := fsSet (fsSet fs (dst ++ gs ".tmp") none) dst (some content)
              if env.removeSrcOk then (fsSet fs1 src none, true)
              else (fs1, false)

/-- atomicMove reaches one of five final states: pure rename, untouched
failure, cleaned-up fallback failure, full fallback success, or a
completed fallback whose final source removal failed. -/
theorem atomicMove_cases (env : MoveEnv) (fs : FS) (src dst : GoStr)
    (content : List Nat) (hsrc : fs src = some content) :
    atomicMove env fs src dst = (fsSet (fsSet fs src none) dst (some content), true) ∨
    atomicMove env fs src dst = (fs, false) ∨
    atomicMove env fs src dst = (fsSet fs (dst ++ gs ".tmp") none, false) ∨
    atomicMove env fs src dst =
      (fsSet (fsSet (fsSet fs (dst ++ gs ".tmp") none) dst (some content)) src none,
        true) ∨
    atomicMove env fs src dst =
      (fsSet (fsSet fs (dst ++ gs ".tmp") none) dst (some content), false) := by
  unfold atomicMove
  rw [hsrc]
  cases hcf : env.copyFail <;> split_ifs <;> simp

/-- C1 (amended): when the source is distinct from the destination and from
the destination's temporary name, a same-volume move is a pure rename; on
any failure the source still holds its original content and the temporary
name holds nothing new (it is removed, or was never created); the final
destination name only ever holds its old content or the complete source
content — never a partial write; and a successful move leaves the complete
content at the destination. -/
theorem atomicMove_spec (env : MoveEnv) (fs : FS) (src dst : GoStr)
    (content : List Nat) (hsrc : fs src = some content)
    (hsd : src ≠ dst) (hst : src ≠ dst ++ gs ".tmp") :
    (env.renameOk = true →
      atomicMove env fs src dst = (fsSet (fsSet fs src none) dst (some content), true))
    ∧ ((atomicMove env fs src dst).2 = false →
        (atomicMove env fs src dst).1 src = some content)
    ∧ ((atomicMove env fs src dst).2 = false →
        (atomicMove env fs src dst).1 (dst ++ gs ".tmp") = none ∨
        (atomicMove env fs src dst).1 (dst ++ gs ".tmp") = fs (dst ++ gs ".tmp"))
    ∧ ((atomicMove env fs src dst).1 dst = fs dst ∨
        (atomicMove env fs src dst).1 dst = some content)
    ∧ ((atomicMove env fs src dst).2 = true →
        (atomicMove env fs src dst).1 dst = some content) := by
  have htd : ¬ (dst ++ gs ".tmp" = dst) := by
    intro h
    have hl := congrArg List.length h
    rw [List.length_append] at hl
    have h4 : (gs ".tmp").length = 4 := rfl
    omega
  have hdt : ¬ (dst = dst ++ gs ".tmp") := fun h => htd h.symm
  have hds : ¬ (dst = src) := fun h => hsd h.symm
  have hts : ¬ (dst ++ gs ".tmp" = src) := fun h => hst h.symm
  refine ⟨?_, ?_, ?_, ?_, ?_⟩
  · intro hr
    unfold atomicMove
    simp only [hsrc]
    rw [if_pos hr]
  · rcases atomicMove_cases env fs src dst content hsrc with h | h | h | h | h <;>
      rw [h] <;> intro hf <;> simp_all [fsSet]
  · rcases atomicMove_cases env fs src dst content hsrc with h | h | h | h | h <;>
      rw [h] <;> intro hf <;> simp_all [fsSet]
  · rcases atomicMove_cases env fs src dst content hsrc with h | h | h | h | h <;>
      rw [h] <;> simp_all [fsSet]
  · rcases atomicMove_cases env fs src dst content hsrc with h | h | h | h | h <;>
      rw [h] <;> intro hf <;> simp_all [fsSet]

/-- The watched file for the C1 witness and counterexample runs. -/
def fsMoveEx : FS := fun p => if p = gs "/w/a" then some [1, 2] else none

/-- A cross-volume move whose io.Copy fails after one byte. -/
def envCopyFailEx : MoveEnv :=
  ⟨false, true, true, true, some 1, true, true, true, true⟩

/-- Witness: on a failed fallback copy the source keeps its content and
nothing appears under the destination or its temporary name. -/
theorem atomicMove_spec_witness :
    (atomicMove envCopyFailEx fsMoveEx (gs "/w/a") (gs "/d/a")).2 = false ∧
    (atomicMove envCopyFailEx fsMoveEx (gs "/w/a") (gs "/d/a")).1 (gs "/w/a") =
      some [1, 2] := by
  have h := atomicMove_spec envCopyFailEx fsMoveEx (gs "/w/a") (gs "/d/a") [1, 2]
    (by decide) (by decide) (by decide)
  exact ⟨by decide, h.2.1 (by decide)⟩

/-- The aliased filesystem for the C1 counterexample: the source file is
literally named like the destination's temporary file. -/
def fsAlias : FS := fun p => if p = gs "/d/a.tmp" then some [9] else none

/-- A move whose initial rename fails (for example because the destination
name is taken by a directory) and whose fallback copy then fails. -/
def envAlias : MoveEnv := ⟨false, true, true, true, some 0, true, true, true, true⟩

/-- C1 counterexample: moving "/d/a.tmp" to "/d/a" when the rename and the
fallback copy fail deletes the source — creating the temporary truncates
the source file itself and the cleanup then removes it — so a failed move
can delete the source when the source path equals dst+".tmp". -/
theorem atomicMove_alias_counterexample :
    fsAlias (gs "/d/a.tmp") = some [9] ∧
    (atomicMove envAlias fsAlias (gs "/d/a.tmp") (gs "/d/a")).2 = false ∧
    (atomicMove envAlias fsAlias (gs "/d/a.tmp") (gs "/d/a")).1 (gs "/d/a.tmp") =
      none := by
  refine ⟨by decide, by decide, by decide⟩

/-- Outcomes of the OS calls made by copyTo, in program order. -/
structure CopyEnv where
  openOk : Bool
  mkdirOk : Bool
  createOk : Bool
  copyFail : Option Nat
  syncOk : Bool
  closeOk : Bool

/-- Model of copyTo: open the source, ensure the destination directory,
create the destination at its final name (truncating), copy, sync, close.
There is no temporary file, no rename, and no cleanup on failure. -/
def copyTo (env : CopyEnv) (fs : FS) (src dst : GoStr) : FS × Bool :=
  match fs src with
  | none => (fs, false)
  | some content =>
      if !env.openOk then (fs, false)
      else if !env.mkdirOk then (fs, false)
      else if !env.createOk then (fs, false)
      else
        match env.copyFail with
        | some k => (fsSet fs dst (some (content.take k)), false)
        | none =>
            if !env.syncOk then (fsSet fs dst (some content), false)
            else if !env.closeOk then (fsSet fs dst (some content), false)
            else (fsSet fs dst (some content), true)

/-- copyTo reaches one of four final states. -/
theorem copyTo_cases (env : CopyEnv) (fs : FS) (src dst : GoStr)
    (content : List Nat) (hsrc : fs src = some content) :
    copyTo env fs src dst = (fs, false) ∨
    (∃ k, copyTo env fs src dst = (fsSet fs dst (some (content.take k)), false)) ∨
    copyTo env fs src dst = (fsSet fs dst (some content), false) ∨
    copyTo env fs src dst = (fsSet fs dst (some content), true) := by
  unfold copyTo
  rw [hsrc]
  cases hcf : env.copyFail <;> split_ifs <;>
    first
    | exact Or.inr (Or.inl ⟨_, rfl⟩)
    | simp

/-- C5 (amended): copyTo never deletes or modifies the source (when it is
distinct from the destination); a successful copy leaves the complete
content under the destination name; but the destination is written
directly at its final name, so on failure the destination may hold a
partially-written prefix of the source, which is not removed. -/
theorem copyTo_spec (env : CopyEnv) (fs : FS) (src dst : GoStr) (hne : src ≠ dst) :
    ((copyTo env fs src dst).1 src = fs src)
    ∧ (∀ content, fs src = some content →
        ((copyTo env fs src dst).2 = true →
          (copyTo env fs src dst).1 dst = some content)
        ∧ ((copyTo env fs src dst).1 dst = fs dst ∨
            (copyTo env fs src dst).1 dst = some content ∨
            ∃ k, (copyTo env fs src dst).1 dst = some (content.take k))) := by
  constructor
  · cases hsrc : fs src with
    | none =>
        unfold copyTo
        simp [hsrc]
    | some content =>
        rcases copyTo_cases env fs src dst content hsrc with h | ⟨k, h⟩ | h | h <;>
          rw [h] <;> simp [fsSet, hne, hsrc]
  · intro content hsrc
    constructor
    · rcases copyTo_cases env fs src dst content hsrc with h | ⟨k, h⟩ | h | h <;>
        rw [h] <;> intro hf <;> simp_all [fsSet]
    · rcases copyTo_cases env fs src dst content hsrc with h | ⟨k, h⟩ | h | h <;>
        rw [h] <;> simp [fsSet]
      · exact Or.inr (Or.inr ⟨k, rfl⟩)

/-- The watched file for the C5 runs. -/
def fsCopyEx : FS := fun p => if p = gs "/w/a" then some [7, 7] else none

/-- A copy whose io.Copy fails after one byte. -/
def envCopyPartial : CopyEnv := ⟨true, true, true, some 1, true, true⟩

/-- C5 counterexample: a failed copy leaves the one-byte prefix [7] visible
under the final destination name (which held nothing before), and no
temporary file is ever involved — refuting the claimed rename-to-temporary
discipline for copies. -/
theorem copyTo_partial_counterexample :
    (copyTo envCopyPartial fsCopyEx (gs "/w/a") (gs "/d/a")).2 = false ∧
    (copyTo envCopyPartial fsCopyEx (gs "/w/a") (gs "/d/a")).1 (gs "/d/a") =
      some [7] ∧
    fsCopyEx (gs "/d/a") = none ∧
    fsCopyEx (gs "/w/a") = some [7, 7] ∧
    (copyTo envCopyPartial fsCopyEx (gs "/w/a") (gs "/d/a")).1
      (gs "/d/a" ++ gs ".tmp") = none := by
  refine ⟨by decide, by decide, by decide, by decide, by decide⟩

/-- Witness: the copy spec applied at the concrete failing-copy run — the
source is untouched and the destination holds a take-prefix. -/
theorem copyTo_spec_witness :
    (copyTo envCopyPartial fsCopyEx (gs "/w/a") (gs "/d/a")).1 (gs "/w/a") =
      some [7, 7] ∧
    ((copyTo envCopyPartial fsCopyEx (gs "/w/a") (gs "/d/a")).1 (gs "/d/a") =
        fsCopyEx (gs "/d/a") ∨
      (copyTo envCopyPartial fsCopyEx (gs "/w/a") (gs "/d/a")).1 (gs "/d/a") =
        some [7, 7] ∨
      ∃ k, (copyTo envCopyPartial fsCopyEx (gs "/w/a") (gs "/d/a")).1 (gs "/d/a") =
        some (List.take k [7, 7])) := by
  have h := copyTo_spec envCopyPartial fsCopyEx (gs "/w/a") (gs "/d/a") (by decide)
  refine ⟨?_, (h.2 [7, 7] (by decide)).2⟩
  rw [h.1]
  decide

/-! ## The dispatch body (main.go: handleFile, after the in-flight guard)

The body is modelled from the stat/ignored-extension gates through the
transfer attempt; the outcome of every system call it makes is supplied by
an environment record in program order.  The effect of the transfer itself
is modelled by atomicMove and copyTo above, and the best-effort WebDAV
upload and notification post-actions are not needed by any claim. -/

/-- The configuration fields the dispatch body consults. -/
structure Config where
  rules : List Rule
  ignoreExts : List GoStr
  createDestDirs : Bool
deriving DecidableEq

/-- Outcomes of the system calls the body makes, in program order:
os.Stat of the path (none = error, otherwise whether it is a directory),
the stability wait, MIME detection, destination mkdir, the duplicate
check's verdict, os.Remove of a duplicate source, and os.Stat existence
for destination candidates. -/
structure HandleEnv where
  statSelf : Option Bool
  stableOk : Bool
  mime : GoStr
  mkdirOk : Bool
  dupFound : Bool
  removeOk : Bool
  statDst : GoStr → Bool

/-- How one dispatch ended. -/
inductive DispatchOutcome where
  | statSkip
  | ignoredExt
  | notStable
  | noRule
  | emptyDest
  | mkdirFail
  | dupDeleted
  | dupDeleteFail
  | dupSkipped
  | moveAttempt (dst : GoStr)
  | copyAttempt (dst : GoStr)
  | unreachableAction
deriving DecidableEq

/-- Observable summary of one dispatch: how it ended, whether duplicate
detection ran, whether the body itself removed the source, and the
destination handed to the transfer engine (none when no transfer started). -/
structure DispatchResult where
  outcome : DispatchOutcome
  dupCheckRun : Bool
  sourceRemoved : Bool
  transfer : Option GoStr
deriving DecidableEq

/-- The transfer step ending the body: resolve the destination, falling
back to uniquePath when the plain name exists, and hand it to the engine
selected by the rule's action. -/
def dispatchTransfer (env : HandleEnv) (path : GoStr) (r : Rule)
    (dupRan : Bool) : DispatchResult :=
  let dst0 := filepath_Join2 r.dest (filepath_Base path)
  let dst := if env.statDst dst0 then uniquePath env.statDst dst0 else dst0
  if r.action = gs "move" then ⟨DispatchOutcome.moveAttempt dst, dupRan, false, some dst⟩
  else if r.action = gs "copy" then
    ⟨DispatchOutcome.copyAttempt dst, dupRan, false, some dst⟩
  else ⟨DispatchOutcome.unreachableAction, dupRan, false, none⟩

/-- The transfer step reports exactly the duplicate-check flag it is
given. -/
theorem dispatchTransfer_dupRan (env : HandleEnv) (path : GoStr) (r : Rule)
    (b : Bool) : (dispatchTransfer env path r b).dupCheckRun = b := by
  unfold dispatchTransfer
  split_ifs <;> rfl

/-- Model of handleFile after the in-flight guard: stat filter, ignored
extensions, stability wait (skipped for the startup catch-up scan),
classification, destination checks, the duplicate-skip branch, and the
transfer step. -/
def handleFileBody (cfg : Config) (env : HandleEnv) (path : GoStr)
    (skipStabilityCheck : Bool) : DispatchResult :=
  match env.statSelf with
  | none => ⟨DispatchOutcome.statSkip, false, false, none⟩
  | some isDir =>
      if isDir then ⟨DispatchOutcome.statSkip, false, false, none⟩
      else if hasIgnoredExt path cfg.ignoreExts then
        ⟨DispatchOutcome.ignoredExt, false, false, none⟩
      else if !skipStabilityCheck && !env.stableOk then
        ⟨DispatchOutcome.notStable, false, false, none⟩
      else
        match chooseRule path env.mime cfg.rules with
        | none => ⟨DispatchOutcome.noRule, false, false, none⟩
        | some r =>
            if r.dest = [] then ⟨DispatchOutcome.emptyDest, false, false, none⟩
            else if cfg.createDestDirs && !env.mkdirOk then
              ⟨DispatchOutcome.mkdirFail, false, false, none⟩
            else if r.skipDuplicates then
              if env.dupFound then
                if r.action = gs "move" then
                  if env.removeOk then ⟨DispatchOutcome.dupDeleted, true, true, none⟩
                  else ⟨DispatchOutcome.dupDeleteFail, true, false, none⟩
                else ⟨DispatchOutcome.dupSkipped, true, false, none⟩
              else dispatchTransfer env path r true
            else dispatchTransfer env path r false

/-- C4 (amended): once a rule has matched and the dispatch has passed the
stat, ignored-extension, stability, empty-destination and mkdir gates,
duplicate detection runs exactly when the matched rule enables
duplicate-skip — a startup catch-up invocation has no special duplicate
behaviour — and on a hit: with a move action whose remove succeeds the
source is deleted and nothing is handed to the transfer engine; with a
copy action the operation is skipped and the source is left in place. -/
theorem handleFile_dupGate_spec (cfg : Config) (env : HandleEnv) (path : GoStr)
    (skipStability : Bool) (r : Rule)
    (hstat : env.statSelf = some false)
    (hig : hasIgnoredExt path cfg.ignoreExts = false)
    (hstable : skipStability = true ∨ env.stableOk = true)
    (hrule : chooseRule path env.mime cfg.rules = some r)
    (hdest : r.dest ≠ [])
    (hmk : cfg.createDestDirs = false ∨ env.mkdirOk = true) :
    ((handleFileBody cfg env path skipStability).dupCheckRun = r.skipDuplicates)
    ∧ (r.skipDuplicates = true → env.dupFound = true → r.action = gs "move" →
        env.removeOk = true →
        handleFileBody cfg env path skipStability =
          ⟨DispatchOutcome.dupDeleted, true, true, none⟩)
    ∧ (r.skipDuplicates = true → env.dupFound = true → r.action = gs "copy" →
        handleFileBody cfg env path skipStability =
          ⟨DispatchOutcome.dupSkipped, true, false, none⟩) := by
  have hstab : (!skipStability && !env.stableOk) = false := by
    rcases hstable with h | h <;> simp [h]
  have hmk' : (cfg.createDestDirs && !env.mkdirOk) = false := by
    rcases hmk with h | h <;> simp [h]
  have hred : handleFileBody cfg env path skipStability =
      if r.skipDuplicates then
        if env.dupFound then
          if r.action = gs "move" then
            if env.removeOk then ⟨DispatchOutcome.dupDeleted, true, true, none⟩
            else ⟨DispatchOutcome.dupDeleteFail, true, false, none⟩
          else ⟨DispatchOutcome.dupSkipped, true, false, none⟩
        else dispatchTransfer env path r true
      else dispatchTransfer env path r false := by
    unfold handleFileBody
    simp only [hstat, hig, hstab, hrule, Bool.false_eq_true, if_false]
    rw [if_neg hdest]
    simp only [hmk', Bool.false_eq_true, if_false]
  refine ⟨?_, ?_, ?_⟩
  · rw [hred]
    cases hsd : r.skipDuplicates
    · rw [if_neg (by decide)]
      rw [dispatchTransfer_dupRan]
    · rw [if_pos rfl]
      cases hdf : env.dupFound
      · rw [if_neg (by decide)]
        rw [dispatchTransfer_dupRan]
      · rw [if_pos rfl]
        split_ifs <;> rfl
  · intro h1 h2 h3 h4
    rw [hred, if_pos h1, if_pos h2, if_pos h3, if_pos h4]
  · intro h1 h2 h3
    have hnm : ¬ (r.action = gs "move") := by
      rw [h3]
      decide
    rw [hred, if_pos h1, if_pos h2, if_neg hnm]

/-- The rule for the C4 runs with duplicate-skip off and a copy action. -/
def ruleGate : Rule :=
  ⟨gs "pdfs", [], [gs "pdf"], [], gs "copy", gs "/out", false, false, gs ""⟩

/-- Configuration holding only that rule. -/
def cfgGate : Config := ⟨[ruleGate], [gs ".part"], true⟩

/-- Environment in which a same-name-and-size duplicate does exist at the
destination (dupFound is true), every call succeeds, and the plain
destination name is free. -/
def envGate : HandleEnv := ⟨some false, true, gs "", true, true, true, fun _ => false⟩

/-- C4 counterexample: a startup catch-up invocation (stability check
skipped) with a copy action and duplicate-skip disabled runs NO duplicate
detection and proceeds straight to the copy — although the claim says a
startup scan with a copy action runs duplicate detection. -/
theorem handleFile_dupGate_counterexample :
    chooseRule (gs "/w/report.pdf") (gs "") cfgGate.rules = some ruleGate ∧
    ruleGate.action = gs "copy" ∧
    ruleGate.skipDuplicates = false ∧
    envGate.dupFound = true ∧
    (handleFileBody cfgGate envGate (gs "/w/report.pdf") true).dupCheckRun = false ∧
    (handleFileBody cfgGate envGate (gs "/w/report.pdf") true).outcome =
      DispatchOutcome.copyAttempt (gs "/out/report.pdf") := by
  refine ⟨by decide, by decide, by decide, by decide, by decide, by decide⟩

/-- The rule for the C4 witness: duplicate-skip on, move action. -/
def ruleDup : Rule :=
  ⟨gs "pdfs", [], [gs "pdf"], [], gs "move", gs "/out", true, false, gs ""⟩

/-- Configuration holding only that rule. -/
def cfgDup : Config := ⟨[ruleDup], [gs ".part"], true⟩

/-- Environment with a duplicate present and a successful source remove. -/
def envDup : HandleEnv := ⟨some false, true, gs "", true, true, true, fun _ => false⟩

/-- Witness: with duplicate-skip enabled, a found duplicate and a move
action, the dispatch deletes the source and starts no transfer. -/
theorem handleFile_dupGate_spec_witness :
    handleFileBody cfgDup envDup (gs "/w/report.pdf") false =
      ⟨DispatchOutcome.dupDeleted, true, true, none⟩ := by
  have h := handleFile_dupGate_spec cfgDup envDup (gs "/w/report.pdf") false ruleDup
    (by decide) (by decide) (Or.inr (by decide)) (by decide) (by decide)
    (Or.inr (by decide))
  exact h.2.1 (by decide) (by decide) (by decide) (by decide)

/-- C6 counterexample: with settle 300 ms and poll 150 ms a constant-size
file needs 3 samples, not ceil(300/150) = 2 as the claim states. -/
theorem waitUntilStable_sample_counterexample :
    waitUntilStable (fun _ => some 10) 300 150 ≠
      some (StableResult.stable ((300 + 150 - 1) / 150)) ∧
    waitUntilStable (fun _ => some 10) 300 150 = some (StableResult.stable 3) := by
  constructor
  · decide
  · decide

/-- Witness: both halves of the amended stability statement at concrete
inputs. -/
theorem waitUntilStable_spec_witness :
    waitUntilStable (fun _ => some 10) 300 150 = some (StableResult.stable 3) ∧
    waitUntilStable (fun n => some ((n : Int))) 300 150 =
      some (StableResult.timeout 2000) := by
  constructor
  · have h := waitUntilStable_spec.1 300 150 10 (by decide) (by decide) (by decide)
      (by decide)
    rw [h]
  · have h := waitUntilStable_spec.2 300 150 (fun n => (n : Int)) (by decide)
      (fun n => by positivity) (fun n => by push_cast; omega)
    rw [h]

/-! ## The in-flight guard (main.go: the processing sync.Map and the
LoadOrStore / deferred-Delete pair at the top of handleFile)

handleFile first claims its path with an atomic insert-if-absent
(processing.LoadOrStore) and returns immediately when the path is already
present; the deferred processing.Delete releases the claim on every exit.
The guarded body is abstracted to a budget of observable work steps.
Invocations interleave through an arbitrary schedule that picks which
invocation steps next. -/

/-- Control position of one handleFile invocation. -/
inductive Phase where
  | start
  | rejected
  | working (remaining : Nat)
  | finished
deriving DecidableEq

/-- One invocation: its path, the number of body steps it will perform
once admitted, its phase, and the work steps performed so far. -/
structure Task where
  path : GoStr
  budget : Nat
  phase : Phase
  effects : Nat
deriving DecidableEq

/-- Global state: the key set of the processing map, plus every invocation. -/
structure SysState where
  procs : List GoStr
  tasks : List Task

/-- One step of one invocation against the processing set: the
insert-if-absent claim (rejecting when the path is present), one body
step, or the final unconditional release. -/
def stepTask (procs : List GoStr) (t : Task) : List GoStr × Task :=
  match t.phase with
  | Phase.start =>
      if t.path ∈ procs then (procs, { t with phase := Phase.rejected })
      else (t.path :: procs, { t with phase := Phase.working t.budget })
  | Phase.working 0 => (procs.erase t.path, { t with phase := Phase.finished })
  | Phase.working (k + 1) =>
      (procs, { t with phase := Phase.working k, effects := t.effects + 1 })
  | Phase.rejected => (procs, t)
  | Phase.finished => (procs, t)

/-- Let invocation `i` take one step (no-op for an out-of-range index). -/
def sysStep (s : SysState) (i : Nat) : SysState :=
  match s.tasks[i]? with
  | none => s
  | some t =>
      ⟨(stepTask s.procs t).1, s.tasks.set i (stepTask s.procs t).2⟩

/-- Run a schedule: at each tick the named invocation steps. -/
def runSched (s : SysState) : List Nat → SysState
  | [] => s
  | i :: sched => runSched (sysStep s i) sched

/-- Initial state: an empty processing set and all invocations at start. -/
def initSys (specs : List (GoStr × Nat)) : SysState :=
  ⟨[], specs.map (fun pb => ⟨pb.1, pb.2, Phase.start, 0⟩)⟩

/-- Is an invocation inside the guarded body? -/
def isWorkingB : Phase → Bool
  | Phase.working _ => true
  | _ => false

/-- The guard invariant: the processing set has no duplicate keys and holds
exactly the paths of invocations inside the guarded body, no two
invocations inside the body share a path, and invocations not yet admitted
or rejected have performed no work. -/
def GuardInv (s : SysState) : Prop :=
  s.procs.Nodup
  ∧ (∀ p : GoStr, p ∈ s.procs ↔
      ∃ i : Nat, ∃ t : Task, s.tasks[i]? = some t ∧ t.path = p ∧
        isWorkingB t.phase = true)
  ∧ (∀ i j : Nat, ∀ ti tj : Task, s.tasks[i]? = some ti → s.tasks[j]? = some tj →
      isWorkingB ti.phase = true → isWorkingB tj.phase = true →
      ti.path = tj.path → i = j)
  ∧ (∀ i : Nat, ∀ t : Task, s.tasks[i]? = some t →
      t.phase = Phase.rejected ∨ t.phase = Phase.start → t.effects = 0)

/-- Lookup after a point update of the task list. -/
theorem set_lookup (tasks : List Task) (i j : Nat) (t t' : Task)
    (hti : tasks[i]? = some t) :
    (tasks.set i t')[j]? = if i = j then some t' else tasks[j]? := by
  obtain ⟨hlt, -⟩ := List.getElem?_eq_some_iff.mp hti
  by_cases hij : i = j
  · subst hij
    simp [List.getElem?_set_self hlt]
  · simp [List.getElem?_set_ne hij, hij]

/-- The initial state satisfies the guard invariant. -/
theorem guardInv_init (specs : List (GoStr × Nat)) : GuardInv (initSys specs) := by
  refine ⟨List.nodup_nil, ?_, ?_, ?_⟩
  · intro p
    constructor
    · intro h
      exact absurd h (List.not_mem_nil p)
    · rintro ⟨i, t, hget, -, hw⟩
      simp only [initSys, List.getElem?_map] at hget
      cases hspec : specs[i]? with
      | none => rw [hspec] at hget; exact absurd hget (by simp)
      | some pb =>
          rw [hspec] at hget
          have ht : t = ⟨pb.1, pb.2, Phase.start, 0⟩ := by
            simpa using hget.symm
          rw [ht] at hw
          exact absurd hw (by simp [isWorkingB])
  · intro i j ti tj hti htj hwi hwj hp
    exfalso
    simp only [initSys, List.getElem?_map] at hti
    cases hspec : specs[i]? with
    | none => rw [hspec] at hti; exact absurd hti (by simp)
    | some pb =>
        rw [hspec] at hti
        have ht : ti = ⟨pb.1, pb.2, Phase.start, 0⟩ := by
          simpa using hti.symm
        rw [ht] at hwi
        exact absurd hwi (by simp [isWorkingB])
  · intro i t hget hphase
    simp only [initSys, List.getElem?_map] at hget
    cases hspec : specs[i]? with
    | none => rw [hspec] at hget; exact absurd hget (by simp)
    | some pb =>
        rw [hspec] at hget
        have ht : t = ⟨pb.1, pb.2, Phase.start, 0⟩ := by
          simpa using hget.symm
        rw [ht]


/-- Replacing a task by one with the same path and working-status leaves
the set of working paths unchanged. -/
theorem working_set_iff (tasks : List Task) (i : Nat) (t t' : Task)
    (hti : tasks[i]? = some t) (hw : isWorkingB t.phase = isWorkingB t'.phase)
    (hpath : t'.path = t.path) (p : GoStr) :
    (∃ k : Nat, ∃ u : Task, (tasks.set i t')[k]? = some u ∧ u.path = p ∧
        isWorkingB u.phase = true)
    ↔ (∃ k : Nat, ∃ u : Task, tasks[k]? = some u ∧ u.path = p ∧
        isWorkingB u.phase = true) := by
  constructor
  · rintro ⟨k, u, hku, hup, hwu⟩
    rw [set_lookup tasks i k t t' hti] at hku
    by_cases hik : i = k
    · rw [if_pos hik] at hku
      have hu : u = t' := (Option.some.inj hku).symm
      subst hu
      subst hik
      exact ⟨i, t, hti, by rw [← hpath, hup], by rw [hw, hwu]⟩
    · rw [if_neg hik] at hku
      exact ⟨k, u, hku, hup, hwu⟩
  · rintro ⟨k, u, hku, hup, hwu⟩
    by_cases hik : i = k
    · subst hik
      rw [hti] at hku
      have hu : t = u := Option.some.inj hku
      refine ⟨i, t', ?_, by rw [hpath, hu, hup], by rw [← hw, hu, hwu]⟩
      rw [set_lookup tasks i i t t' hti, if_pos rfl]
    · refine ⟨k, u, ?_, hup, hwu⟩
      rw [set_lookup tasks i k t t' hti, if_neg hik]
      exact hku

/-- Replacing a task by one that is working only if the original was (with
the same path) preserves mutual exclusion. -/
theorem mutex_transfer (tasks : List Task) (i : Nat) (t t' : Task)
    (hti : tasks[i]? = some t)
    (hw : isWorkingB t'.phase = true → isWorkingB t.phase = true)
    (hpath : t'.path = t.path)
    (hmx : ∀ j k : Nat, ∀ tj tk : Task, tasks[j]? = some tj → tasks[k]? = some tk →
      isWorkingB tj.phase = true → isWorkingB tk.phase = true → tj.path = tk.path →
      j = k) :
    ∀ j k : Nat, ∀ tj tk : Task, (tasks.set i t')[j]? = some tj →
      (tasks.set i t')[k]? = some tk →
      isWorkingB tj.phase = true → isWorkingB tk.phase = true → tj.path = tk.path →
      j = k := by
  intro j k tj tk hj hk hwj hwk hp
  rw [set_lookup tasks i j t t' hti] at hj
  rw [set_lookup tasks i k t t' hti] at hk
  by_cases hij : i = j <;> by_cases hik : i = k
  · omega
  · rw [if_pos hij] at hj
    rw [if_neg hik] at hk
    have htj : tj = t' := (Option.some.inj hj).symm
    subst htj
    subst hij
    exact hmx i k t tk hti hk (hw hwj) hwk (by rw [← hpath, hp])
  · rw [if_neg hij] at hj
    rw [if_pos hik] at hk
    have htk : tk = t' := (Option.some.inj hk).symm
    subst htk
    subst hik
    exact hmx j i tj t hj hti hwj (hw hwk) (by rw [hp, hpath])
  · rw [if_neg hij] at hj
    rw [if_neg hik] at hk
    exact hmx j k tj tk hj hk hwj hwk hp

/-- Replacing a task by one that satisfies the zero-effects condition
preserves the effects invariant. -/
theorem effects_transfer (tasks : List Task) (i : Nat) (t t' : Task)
    (hti : tasks[i]? = some t)
    (ht' : t'.phase = Phase.rejected ∨ t'.phase = Phase.start → t'.effects = 0)
    (heff : ∀ j : Nat, ∀ u : Task, tasks[j]? = some u →
      u.phase = Phase.rejected ∨ u.phase = Phase.start → u.effects = 0) :
    ∀ j : Nat, ∀ u : Task, (tasks.set i t')[j]? = some u →
      u.phase = Phase.rejected ∨ u.phase = Phase.start → u.effects = 0 := by
  intro j u hj hph
  rw [set_lookup tasks i j t t' hti] at hj
  by_cases hij : i = j
  · rw [if_pos hij] at hj
    have hu : u = t' := (Option.some.inj hj).symm
    subst hu
    exact ht' hph
  · rw [if_neg hij] at hj
    exact heff j u hj hph


/-- Every step of any invocation preserves the guard invariant. -/
theorem guardInv_step (s : SysState) (i : Nat) (h : GuardInv s) :
    GuardInv (sysStep s i) := by
  obtain ⟨hnd, hiff, hmx, heff⟩ := h
  unfold sysStep
  cases hti : s.tasks[i]? with
  | none => exact ⟨hnd, hiff, hmx, heff⟩
  | some t =>
      cases hph : t.phase with
      | start =>
          by_cases hmem : t.path ∈ s.procs
          · simp only [stepTask, hph, if_pos hmem]
            refine ⟨hnd, ?_, ?_, ?_⟩
            · intro p
              rw [hiff p]
              exact (working_set_iff s.tasks i t { t with phase := Phase.rejected }
                hti (by simp [hph, isWorkingB]) rfl p).symm
            · exact mutex_transfer s.tasks i t { t with phase := Phase.rejected } hti
                (by intro hw'; simp [isWorkingB] at hw') rfl hmx
            · exact effects_transfer s.tasks i t { t with phase := Phase.rejected } hti
                (fun _ => heff i t hti (Or.inr hph)) heff
          · simp only [stepTask, hph, if_neg hmem]
            refine ⟨List.nodup_cons.mpr ⟨hmem, hnd⟩, ?_, ?_, ?_⟩
            · intro p
              constructor
              · intro hp
                rcases List.mem_cons.mp hp with hp | hp
                · refine ⟨i, { t with phase := Phase.working t.budget }, ?_, ?_, rfl⟩
                  · rw [set_lookup s.tasks i i t _ hti, if_pos rfl]
                  · rw [← hp]
                · obtain ⟨k, u, hku, hup, hwu⟩ := (hiff p).mp hp
                  have hik : ¬ (i = k) := by
                    intro hik
                    subst hik
                    rw [hti] at hku
                    have hu : t = u := Option.some.inj hku
                    rw [← hu, hph] at hwu
                    simp [isWorkingB] at hwu
                  refine ⟨k, u, ?_, hup, hwu⟩
                  rw [set_lookup s.tasks i k t _ hti, if_neg hik]
                  exact hku
              · rintro ⟨k, u, hku, hup, hwu⟩
                rw [set_lookup s.tasks i k t _ hti] at hku
                by_cases hik : i = k
                · rw [if_pos hik] at hku
                  have hu : u = { t with phase := Phase.working t.budget } :=
                    (Option.some.inj hku).symm
                  rw [hu] at hup
                  exact List.mem_cons.mpr (Or.inl hup.symm)
                · rw [if_neg hik] at hku
                  exact List.mem_cons.mpr (Or.inr ((hiff p).mpr ⟨k, u, hku, hup, hwu⟩))
            · intro j k tj tk hj hk hwj hwk hp
              rw [set_lookup s.tasks i j t _ hti] at hj
              rw [set_lookup s.tasks i k t _ hti] at hk
              by_cases hij : i = j <;> by_cases hik : i = k
              · omega
              · exfalso
                rw [if_pos hij] at hj
                rw [if_neg hik] at hk
                have htj : tj = { t with phase := Phase.working t.budget } :=
                  (Option.some.inj hj).symm
                apply hmem
                have hmem2 : tj.path ∈ s.procs := by
                  rw [hp]
                  exact (hiff tk.path).mpr ⟨k, tk, hk, rfl, hwk⟩
                rw [htj] at hmem2
                exact hmem2
              · exfalso
                rw [if_neg hij] at hj
                rw [if_pos hik] at hk
                have htk : tk = { t with phase := Phase.working t.budget } :=
                  (Option.some.inj hk).symm
                apply hmem
                have hmem2 : tk.path ∈ s.procs := by
                  rw [← hp]
                  exact (hiff tj.path).mpr ⟨j, tj, hj, rfl, hwj⟩
                rw [htk] at hmem2
                exact hmem2
              · rw [if_neg hij] at hj
                rw [if_neg hik] at hk
                exact hmx j k tj tk hj hk hwj hwk hp
            · exact effects_transfer s.tasks i t
                { t with phase := Phase.working t.budget } hti
                (by intro hcon; rcases hcon with hc | hc <;> simp at hc) heff
      | rejected =>
          simp only [stepTask, hph]
          refine ⟨hnd, ?_, ?_, ?_⟩
          · intro p
            rw [hiff p]
            exact (working_set_iff s.tasks i t t hti rfl rfl p).symm
          · exact mutex_transfer s.tasks i t t hti (fun hw => hw) rfl hmx
          · exact effects_transfer s.tasks i t t hti
              (fun _ => heff i t hti (Or.inl hph)) heff
      | working k =>
          cases k with
          | zero =>
              simp only [stepTask, hph]
              refine ⟨List.Nodup.erase t.path hnd, ?_, ?_, ?_⟩
              · intro p
                rw [List.Nodup.mem_erase_iff hnd]
                constructor
                · rintro ⟨hne, hp⟩
                  obtain ⟨j, u, hju, hup, hwu⟩ := (hiff p).mp hp
                  have hij : ¬ (i = j) := by
                    intro hij
                    subst hij
                    rw [hti] at hju
                    have hu : t = u := Option.some.inj hju
                    rw [← hu] at hup
                    exact hne hup.symm
                  refine ⟨j, u, ?_, hup, hwu⟩
                  rw [set_lookup s.tasks i j t _ hti, if_neg hij]
                  exact hju
                · rintro ⟨j, u, hju, hup, hwu⟩
                  rw [set_lookup s.tasks i j t _ hti] at hju
                  by_cases hij : i = j
                  · rw [if_pos hij] at hju
                    have hu : u = { t with phase := Phase.finished } :=
                      (Option.some.inj hju).symm
                    rw [hu] at hwu
                    simp [isWorkingB] at hwu
                  · rw [if_neg hij] at hju
                    refine ⟨?_, (hiff p).mpr ⟨j, u, hju, hup, hwu⟩⟩
                    intro hpt
                    apply hij
                    apply hmx i j t u hti hju (by rw [hph]; rfl) hwu
                    rw [hup, hpt]
              · exact mutex_transfer s.tasks i t { t with phase := Phase.finished } hti
                  (by intro hw'; simp [isWorkingB] at hw') rfl hmx
              · exact effects_transfer s.tasks i t { t with phase := Phase.finished }
                  hti (by intro hcon; rcases hcon with hc | hc <;> simp at hc) heff
          | succ k =>
              simp only [stepTask, hph]
              refine ⟨hnd, ?_, ?_, ?_⟩
              · intro p
                rw [hiff p]
                exact (working_set_iff s.tasks i t
                  { t with phase := Phase.working k, effects := t.effects + 1 } hti
                  (by simp [hph, isWorkingB]) rfl p).symm
              · exact mutex_transfer s.tasks i t
                  { t with phase := Phase.working k, effects := t.effects + 1 } hti
                  (by intro _; rw [hph]; rfl) rfl hmx
              · exact effects_transfer s.tasks i t
                  { t with phase := Phase.working k, effects := t.effects + 1 } hti
                  (by intro hcon; rcases hcon with hc | hc <;> simp at hc) heff
      | finished =>
          simp only [stepTask, hph]
          refine ⟨hnd, ?_, ?_, ?_⟩
          · intro p
            rw [hiff p]
            exact (working_set_iff s.tasks i t t hti rfl rfl p).symm
          · exact mutex_transfer s.tasks i t t hti (fun hw => hw) rfl hmx
          · exact effects_transfer s.tasks i t t hti
              (by
                intro hcon
                rw [hph] at hcon
                rcases hcon with hc | hc <;> exact absurd hc (by simp)) heff


/-- The invariant is preserved by every schedule. -/
theorem guardInv_run (s : SysState) (sched : List Nat) (h : GuardInv s) :
    GuardInv (runSched s sched) := by
  induction sched generalizing s with
  | nil => exact h
  | cons i sched ih => exact ih (sysStep s i) (guardInv_step s i h)

/-- C2: over every initial set of invocations and every interleaving: the
processing map holds each path at most once; no two invocations for the
same path are ever inside the guarded body simultaneously (at most one
dispatch executes per path at a time); the map holds exactly the paths of
invocations currently inside the body — the claim is added before any work
begins and removed on every exit, however the body ends; and an invocation
rejected by the insert-if-absent guard has performed no work steps (it
terminates immediately with no side effects). -/
theorem handleFile_guard_spec (specs : List (GoStr × Nat)) (sched : List Nat) :
    ((runSched (initSys specs) sched).procs.Nodup)
    ∧ (∀ i j : Nat, ∀ ti tj : Task,
        (runSched (initSys specs) sched).tasks[i]? = some ti →
        (runSched (initSys specs) sched).tasks[j]? = some tj →
        isWorkingB ti.phase = true → isWorkingB tj.phase = true →
        ti.path = tj.path → i = j)
    ∧ (∀ p : GoStr, p ∈ (runSched (initSys specs) sched).procs ↔
        ∃ i : Nat, ∃ t : Task, (runSched (initSys specs) sched).tasks[i]? = some t ∧
          t.path = p ∧ isWorkingB t.phase = true)
    ∧ (∀ i : Nat, ∀ t : Task, (runSched (initSys specs) sched).tasks[i]? = some t →
        t.phase = Phase.rejected → t.effects = 0) := by
  obtain ⟨h1, h2, h3, h4⟩ := guardInv_run (initSys specs) sched (guardInv_init specs)
  exact ⟨h1, h3, h2, fun i t ht hr => h4 i t ht (Or.inl hr)⟩

/-- Witness: two rapid invocations for the same path, scheduled first
then second — the second observes the claim, is rejected, and has
performed no work; the path is claimed by the first. -/
theorem handleFile_guard_spec_witness :
    (runSched (initSys [(gs "/w/a", 1), (gs "/w/a", 2)]) [0, 1]).tasks[1]? =
      some ⟨gs "/w/a", 2, Phase.rejected, 0⟩ ∧
    (runSched (initSys [(gs "/w/a", 1), (gs "/w/a", 2)]) [0, 1]).procs = [gs "/w/a"] ∧
    (⟨gs "/w/a", 2, Phase.rejected, 0⟩ : Task).effects = 0 := by
  refine ⟨by decide, by decide, ?_⟩
  exact (handleFile_guard_spec [(gs "/w/a", 1), (gs "/w/a", 2)] [0, 1]).2.2.2 1
    ⟨gs "/w/a", 2, Phase.rejected, 0⟩ (by decide) rfl

end Downwatch
